import Mathlib

/-!
Verification of the leftist-heap priority queue in src/src/priority_queue.hpp
(namespace sjtu, template class priority_queue).

The development embeds the source at two levels of abstraction.

1. A functional tree model (`Tree`, `meld`, `priority_queue` and its
   operations).  Node pointers (`Node*`, possibly null) become the inductive
   `Tree`; the member comparator `Compare comp`, which may throw, becomes a
   field of type `alpha -> alpha -> Except eps Bool` (`Except.error` models a
   thrown exception).  General recursion of `meld` is made total with an
   explicit fuel parameter; running out of fuel is an error
   (`MeldErr.fuelOut`), so every successful run corresponds to a real,
   terminating run of the source.

2. A store model (`Store`, `meldS`, `pushS`, `popS`, `mergeS`) in which nodes
   live at numeric addresses of an explicit mutable store and every structural
   assignment of the source (`a->r = newRight`, the child swap, the `npl`
   update, `new`, `delete`) is an explicit store update, in source order.
   This level is needed for the exception-safety claims: in it, the statement
   that a failing comparator leaves the memory untouched is a real theorem
   about mutation order, not a triviality of value semantics.

Undefined behaviour of the source (dereferencing a dangling or null pointer)
is modelled by the explicit error values `PQErr.ub` and `MeldErr.corrupt`;
those paths are unreachable from well-formed states.
-/

namespace sjtu

variable {α ε : Type}

/-- Models the nullable owning pointer `Node*`: either null (`nil`) or a node
with a value, the two child pointers `l`, `r`, and the null-path length
`npl`. -/
inductive Tree (α : Type) where
  | nil : Tree α
  | node (val : α) (l r : Tree α) (npl : Int) : Tree α
deriving DecidableEq

/-- Source `get_npl`: `x ? x->npl : 0`. -/
def get_npl : Tree α → Int
  | .nil => 0
  | .node _ _ _ n => n

/-- Number of nodes actually reachable from a root pointer. -/
def treeSize : Tree α → Nat
  | .nil => 0
  | .node _ l r _ => treeSize l + treeSize r + 1

/-- Multiset of the values stored in a tree. -/
def elemsT : Tree α → Multiset α
  | .nil => 0
  | .node v l r _ => v ::ₘ (elemsT l + elemsT r)

/-- Value at the root pointer, if the pointer is not null. -/
def rootVal : Tree α → Option α
  | .nil => none
  | .node v _ _ _ => some v

/-- Errors of the internal `meld` routine: the comparator threw
(`compFail`), the fuel of the embedding ran out (`fuelOut`), or a dangling
pointer was dereferenced, which is undefined behaviour in the source
(`corrupt`). -/
inductive MeldErr (ε : Type) where
  | compFail (e : ε) : MeldErr ε
  | fuelOut : MeldErr ε
  | corrupt : MeldErr ε
deriving DecidableEq

/-- The tail of a `meld` frame after the recursive call returned `nr`:
`a->r = newRight; if (get_npl(a->l) < get_npl(a->r)) swap(a->l, a->r);
a->npl = get_npl(a->r) + 1; return a;` for a winner node with value `wv` and
left child `wl`. -/
def rebuild (wv : α) (wl nr : Tree α) : Tree α :=
  if get_npl wl < get_npl nr then .node wv nr wl (get_npl wl + 1)
  else .node wv wl nr (get_npl nr + 1)

/-- Source `meld` (functional level).  If `comp a->val b->val` is true the
two operands swap roles, then the loser is melded into the right child of the
winner and the leftist property is restored (`rebuild`).  The fuel parameter
makes the recursion structural; a successful result never depends on the
fuel spent. -/
def meld (comp : α → α → Except ε Bool) : Nat → Tree α → Tree α → Except (MeldErr ε) (Tree α)
  | 0, _, _ => .error .fuelOut
  | _ + 1, .nil, b => .ok b
  | _ + 1, .node av al ar an, .nil => .ok (.node av al ar an)
  | fuel + 1, .node av al ar an, .node bv bl br bn =>
    match comp av bv with
    | .error e => .error (.compFail e)
    | .ok true =>
      match meld comp fuel br (.node av al ar an) with
      | .error e => .error e
      | .ok nr => .ok (rebuild bv bl nr)
    | .ok false =>
      match meld comp fuel ar (.node bv bl br bn) with
      | .error e => .error e
      | .ok nr => .ok (rebuild av al nr)

/-- The exceptions of the public interface: `container_is_empty` and
`runtime_error` are the exception classes thrown by the source; `raw e`
models a user exception that escapes unconverted; `ub` marks undefined
behaviour of the source (null dereference), unreachable from well-formed
states. -/
inductive PQErr (ε : Type) where
  | container_is_empty : PQErr ε
  | runtime_error : PQErr ε
  | raw (e : ε) : PQErr ε
  | ub : PQErr ε
deriving DecidableEq

/-- The data members of `sjtu::priority_queue`: the owning root pointer, the
cached element count `cnt`, and the comparator object `comp`. -/
structure priority_queue (α ε : Type) where
  root : Tree α
  cnt : Nat
  comp : α → α → Except ε Bool

/-- Source `size()`: returns `cnt`. -/
def priority_queue.size (q : priority_queue α ε) : Nat := q.cnt

/-- Source `empty()`: `cnt == 0`. -/
def priority_queue.empty (q : priority_queue α ε) : Bool := q.cnt == 0

/-- Source `top()`: throws `container_is_empty` when `empty()`, otherwise
returns `root->val`. -/
def priority_queue.top (q : priority_queue α ε) : Except (PQErr ε) α :=
  if q.empty then .error .container_is_empty
  else
    match q.root with
    | .nil => .error .ub
    | .node v _ _ _ => .ok v

/-- Source `push(e)`: allocate a fresh node for `e` (`new Node(e)`, which
sets `l = r = nullptr, npl = 1`), meld it with the root and increment `cnt`;
if `meld` throws, delete the node, leave `root` and `cnt` unchanged and
rethrow as `runtime_error`.  Value-copy failure of `new Node(e)` is modelled
at the store level (`pushS`), where the copy operation is explicit. -/
def priority_queue.push (fuel : Nat) (q : priority_queue α ε) (e : α) :
    priority_queue α ε × Option (PQErr ε) :=
  match meld q.comp fuel q.root (.node e .nil .nil 1) with
  | .ok r => ({ root := r, cnt := q.cnt + 1, comp := q.comp }, none)
  | .error _ => (q, some .runtime_error)

/-- Source `pop()`: throws `container_is_empty` when `empty()`; otherwise
replaces the root by the meld of its children, decrements `cnt` and frees the
old root; if `meld` throws, restores the old root and rethrows as
`runtime_error`. -/
def priority_queue.pop (fuel : Nat) (q : priority_queue α ε) :
    priority_queue α ε × Option (PQErr ε) :=
  if q.empty then (q, some .container_is_empty)
  else
    match q.root with
    | .nil => (q, some .ub)
    | .node _ l r _ =>
      match meld q.comp fuel l r with
      | .ok t => ({ root := t, cnt := q.cnt - 1, comp := q.comp }, none)
      | .error _ => (q, some .runtime_error)

/-- Source `merge(other)`: no-op when `this == &other` (modelled by the
`isSelf` flag) or `other.empty()`; otherwise meld the two roots into `this`,
add the counts and clear `other`; if `meld` throws, both heaps stay unchanged
and `runtime_error` is thrown. -/
def priority_queue.merge (fuel : Nat) (isSelf : Bool) (q other : priority_queue α ε) :
    (priority_queue α ε × priority_queue α ε) × Option (PQErr ε) :=
  if isSelf || other.empty then ((q, other), none)
  else
    match meld q.comp fuel q.root other.root with
    | .ok t =>
      (({ root := t, cnt := q.cnt + other.cnt, comp := q.comp },
        { root := .nil, cnt := 0, comp := other.comp }), none)
    | .error _ => ((q, other), some .runtime_error)

/-- Source `clone`: deep copy of a tree; `new Node(x->val)` copies the stored
value through the copy "function" `copyv`, which may fail, then the `npl` is
copied and the children are cloned left first. -/
def clone (copyv : α → Except ε α) : Tree α → Except ε (Tree α)
  | .nil => .ok .nil
  | .node v l r np =>
    match copyv v with
    | .error e => .error e
    | .ok v2 =>
      match clone copyv l with
      | .error e => .error e
      | .ok l2 =>
        match clone copyv r with
        | .error e => .error e
        | .ok r2 => .ok (.node v2 l2 r2 np)

/-- Source `operator=`: `if (this == &other) return *this;` (the `isSelf`
flag models the pointer identity test), otherwise clone the source tree,
release the old one and install the clone.  The two booleans of the result
report whether `clone` and whether `clear` (release) were invoked, so that
the early-return path is observably distinct. -/
def priority_queue.assign (isSelf : Bool) (copyv : α → Except ε α)
    (self other : priority_queue α ε) :
    Except ε (priority_queue α ε) × Bool × Bool :=
  match isSelf with
  | true => (.ok self, false, false)
  | false =>
    match clone copyv other.root with
    | .error e => (.error e, true, false)
    | .ok t => (.ok { root := t, cnt := other.cnt, comp := other.comp }, true, true)

/-- Source comparison made into the Bool `comp v w == ok false`: the
supplied ordering does not place `v` below `w` (`v` is not less than `w`). -/
def leOk (comp : α → α → Except ε Bool) (v w : α) : Bool :=
  match comp v w with
  | .ok false => true
  | _ => false

/-- The heap-order condition between a node value and one child pointer:
`compare(parent.value, child.value)` is false whenever the child exists. -/
def domChild (comp : α → α → Except ε Bool) (v : α) : Tree α → Bool
  | .nil => true
  | .node w _ _ _ => leOk comp v w

/-- Heap order: at every node, `compare(parent.value, child.value)` is false
for both children that exist. -/
def heapOrdB (comp : α → α → Except ε Bool) : Tree α → Bool
  | .nil => true
  | .node v l r _ =>
    domChild comp v l && domChild comp v r && heapOrdB comp l && heapOrdB comp r

/-- The leftist and rank invariants: at every node
`get_npl r <= get_npl l` and `npl = get_npl r + 1`. -/
def leftistB : Tree α → Bool
  | .nil => true
  | .node _ l r np =>
    decide (get_npl r ≤ get_npl l) && (np == get_npl r + 1) && leftistB l && leftistB r

/-- Every node carries a rank of at least 1. -/
def ranksPos : Tree α → Bool
  | .nil => true
  | .node _ l r np => decide (1 ≤ np) && ranksPos l && ranksPos r

/-- The value-copy operation of a `T` whose copy constructor always
succeeds and returns the value unchanged. -/
def pureCopy : α → Except ε α := fun a => .ok a

/-- Queue states reachable through the public operations: default
construction, `push`, `pop`, `merge` (both participants), and copy
construction with a faithful value copy.  The operation steps do not
constrain the result flag, so states after a failed operation are reachable
states as well. -/
inductive Reachable (comp : α → α → Except ε Bool) : priority_queue α ε → Prop where
  | init : Reachable comp { root := .nil, cnt := 0, comp := comp }
  | push (fuel : Nat) (e : α) {q q2 : priority_queue α ε} {res : Option (PQErr ε)} :
      Reachable comp q → priority_queue.push fuel q e = (q2, res) → Reachable comp q2
  | pop (fuel : Nat) {q q2 : priority_queue α ε} {res : Option (PQErr ε)} :
      Reachable comp q → priority_queue.pop fuel q = (q2, res) → Reachable comp q2
  | mergeL (fuel : Nat) (isSelf : Bool) {q other q2 other2 : priority_queue α ε}
      {res : Option (PQErr ε)} :
      Reachable comp q → Reachable comp other →
      priority_queue.merge fuel isSelf q other = ((q2, other2), res) → Reachable comp q2
  | mergeR (fuel : Nat) (isSelf : Bool) {q other q2 other2 : priority_queue α ε}
      {res : Option (PQErr ε)} :
      Reachable comp q → Reachable comp other →
      priority_queue.merge fuel isSelf q other = ((q2, other2), res) → Reachable comp other2
  | copy {q : priority_queue α ε} {t : Tree α} :
      Reachable comp q → clone pureCopy q.root = .ok t →
      Reachable comp { root := t, cnt := q.cnt, comp := q.comp }

/-! ## Store model

Nodes live at numeric addresses of an explicit store; pointer fields hold
addresses (`Option Nat`, `none` for null).  Every structural assignment of
the source is an explicit store update, in source order, so that the
exception-safety claims are theorems about mutation order. -/

/-- The in-memory representation of `Node`: value, child pointers, rank. -/
structure NodeR (α : Type) where
  val : α
  l : Option Nat
  r : Option Nat
  npl : Int
deriving DecidableEq

/-- The heap memory: an association list from addresses to nodes. -/
abbrev Store (α : Type) := List (Nat × NodeR α)

/-- Read the node at an address, `none` when the address is not allocated. -/
def sget (s : Store α) (k : Nat) : Option (NodeR α) :=
  match s with
  | [] => none
  | (k2, v) :: rest => if k2 = k then some v else sget rest k

/-- Free an address (`delete`). -/
def serase (s : Store α) (k : Nat) : Store α :=
  match s with
  | [] => []
  | (k2, v) :: rest => if k2 = k then serase rest k else (k2, v) :: serase rest k

/-- Overwrite the node at an address (an assignment through a pointer). -/
def sset (s : Store α) (k : Nat) (v : NodeR α) : Store α :=
  (k, v) :: serase s k

/-- An address not yet allocated in the store: one past the largest key. -/
def sfresh (s : Store α) : Nat :=
  s.foldr (fun p m => max p.1 m) 0 + 1

/-- Source `get_npl` at the store level: `x ? x->npl : 0`; a dangling
pointer reads as 0 (undefined behaviour in the source, unreachable from
well-formed states). -/
def get_nplS (s : Store α) : Option Nat → Int
  | none => 0
  | some k =>
    match sget s k with
    | some n => n.npl
    | none => 0

/-- Source `meld` at the store level.  The comparator call and the recursive
call happen before any store write of the frame; the three structural
assignments (`a->r = newRight`, the conditional child swap, the `npl`
update) are three store writes in source order.  Dereferencing a dangling
pointer yields `corrupt`. -/
def meldS (comp : α → α → Except ε Bool) :
    Nat → Store α → Option Nat → Option Nat → Store α × Except (MeldErr ε) (Option Nat)
  | 0, s, _, _ => (s, .error .fuelOut)
  | _ + 1, s, none, b => (s, .ok b)
  | _ + 1, s, some a, none => (s, .ok (some a))
  | fuel + 1, s, some a, some b =>
    match sget s a, sget s b with
    | some an, some bn =>
      match comp an.val bn.val with
      | .error e => (s, .error (.compFail e))
      | .ok c =>
        let w := if c then b else a
        let wn := if c then bn else an
        let loser := if c then a else b
        match meldS comp fuel s wn.r (some loser) with
        | (s1, .error e) => (s1, .error e)
        | (s1, .ok nr) =>
          match sget s1 w with
          | none => (s1, .error .corrupt)
          | some wn1 =>
            let wn2 : NodeR α := { wn1 with r := nr }
            let s2 := sset s1 w wn2
            let wn3 : NodeR α :=
              if get_nplS s2 wn2.l < get_nplS s2 wn2.r then
                { wn2 with l := wn2.r, r := wn2.l }
              else wn2
            let s3 := sset s2 w wn3
            (sset s3 w { wn3 with npl := get_nplS s3 wn3.r + 1 }, .ok (some w))
    | _, _ => (s, .error .corrupt)

/-- The `root` and `cnt` data members of one queue object in the store
model. -/
structure HeapHdr where
  root : Option Nat
  cnt : Nat
deriving DecidableEq

/-- Source `push(e)` at the store level.  `new Node(e)` copies the value
through `copyv` and allocates a fresh node; this happens before the `try`
block, so a copy failure propagates raw.  If `meld` fails, the node is
deleted, `root` and `cnt` stay unchanged, and `runtime_error` is thrown. -/
def pushS (comp : α → α → Except ε Bool) (copyv : α → Except ε α) (fuel : Nat)
    (s : Store α) (h : HeapHdr) (e : α) : (Store α × HeapHdr) × Option (PQErr ε) :=
  match copyv e with
  | .error ex => ((s, h), some (.raw ex))
  | .ok v =>
    let k := sfresh s
    let s1 : Store α := (k, { val := v, l := none, r := none, npl := 1 }) :: s
    match meldS comp fuel s1 h.root (some k) with
    | (s2, .ok r) => ((s2, { root := r, cnt := h.cnt + 1 }), none)
    | (s2, .error _) => ((serase s2 k, { root := h.root, cnt := h.cnt }), some .runtime_error)

/-- Source `pop()` at the store level: throws `container_is_empty` when
`cnt == 0`; otherwise melds the two children of the old root; on success the
old root is deleted and `cnt` decremented, on failure the old root is
restored and `runtime_error` is thrown. -/
def popS (comp : α → α → Except ε Bool) (fuel : Nat)
    (s : Store α) (h : HeapHdr) : (Store α × HeapHdr) × Option (PQErr ε) :=
  if h.cnt = 0 then ((s, h), some .container_is_empty)
  else
    match h.root with
    | none => ((s, h), some .ub)
    | some old =>
      match sget s old with
      | none => ((s, h), some .ub)
      | some oldn =>
        match meldS comp fuel s oldn.l oldn.r with
        | (s2, .ok r) => ((serase s2 old, { root := r, cnt := h.cnt - 1 }), none)
        | (s2, .error _) => ((s2, { root := some old, cnt := h.cnt }), some .runtime_error)

/-- Source `merge(other)` at the store level (the two queues share the
store).  No-op when `this == &other` (flag `isSelf`) or `other` is empty;
otherwise meld the roots; on success `other` is cleared, on failure both
headers and the store stay unchanged and `runtime_error` is thrown. -/
def mergeS (comp : α → α → Except ε Bool) (fuel : Nat) (isSelf : Bool)
    (s : Store α) (h o : HeapHdr) : (Store α × HeapHdr × HeapHdr) × Option (PQErr ε) :=
  if isSelf || o.cnt == 0 then ((s, h, o), none)
  else
    match meldS comp fuel s h.root o.root with
    | (s2, .ok r) => ((s2, { root := r, cnt := h.cnt + o.cnt }, { root := none, cnt := 0 }), none)
    | (s2, .error _) => ((s2, h, o), some .runtime_error)

/-- Observation `top()` in the store model: the value of the root node of a
non-empty queue. -/
def topS (s : Store α) (h : HeapHdr) : Option α :=
  if h.cnt == 0 then none
  else
    match h.root with
    | none => none
    | some k => (sget s k).map (fun n => n.val)

/-- Observation: the multiset of elements reachable from a root pointer in
the store (with fuel against ill-formed cyclic stores). -/
def elemsS : Nat → Store α → Option Nat → Multiset α
  | 0, _, _ => 0
  | _ + 1, _, none => 0
  | fuel + 1, s, some k =>
    match sget s k with
    | none => 0
    | some n => n.val ::ₘ (elemsS fuel s n.l + elemsS fuel s n.r)

/-! ## Concrete fixtures used by the witnesses -/

/-- A total strict order on naturals, wrapped as a non-throwing comparator. -/
def cmpN : Nat → Nat → Except Nat Bool := fun a b => .ok (decide (a < b))

/-- A comparator with genuine ties between distinct values: it compares the
halves, so 2 and 3 are equivalent but distinct. -/
def cmpDiv : Nat → Nat → Except Nat Bool := fun a b => .ok (decide (a / 2 < b / 2))

/-- A comparator that always throws. -/
def cmpFail : Nat → Nat → Except Nat Bool := fun _ _ => .error 0

/-- A value copy that always throws exception 7. -/
def copyFail : Nat → Except Nat Nat := fun _ => .error 7

/-- Witness store: a three-node heap rooted at address 1 plus a singleton
heap at address 4. -/
def wStore : Store Nat :=
  [(1, { val := 9, l := some 2, r := some 3, npl := 1 }),
   (2, { val := 5, l := none, r := none, npl := 1 }),
   (3, { val := 4, l := none, r := none, npl := 1 }),
   (4, { val := 6, l := none, r := none, npl := 1 })]

/-- Witness header of the three-node heap. -/
def wH : HeapHdr := { root := some 1, cnt := 3 }

/-- Witness header of the singleton heap. -/
def wO : HeapHdr := { root := some 4, cnt := 1 }

/-- Witness queue holding the single element 10. -/
def wQ1 : priority_queue Nat Nat := { root := .node 10 .nil .nil 1, cnt := 1, comp := cmpN }

/-- Witness queue holding the single element 15. -/
def wQ2 : priority_queue Nat Nat := { root := .node 15 .nil .nil 1, cnt := 1, comp := cmpN }

/-- The result of merging the two witness queues. -/
def wQ12 : priority_queue Nat Nat :=
  { root := .node 15 (.node 10 .nil .nil 1) .nil 1, cnt := 2, comp := cmpN }

/-- The emptied second witness queue after the merge. -/
def wQ0 : priority_queue Nat Nat := { root := .nil, cnt := 0, comp := cmpN }

/-- The empty witness queue. -/
def wQE : priority_queue Nat Nat := { root := .nil, cnt := 0, comp := cmpN }

/-! ## Store lemmas -/

theorem sget_serase (s : Store α) (k k2 : Nat) :
    sget (serase s k) k2 = if k = k2 then none else sget s k2 := by
  induction s with
  | nil => simp [serase, sget]
  | cons p rest ih =>
    obtain ⟨k0, v0⟩ := p
    by_cases h0 : k0 = k
    · subst h0
      by_cases h2 : k0 = k2
      · subst h2; simp [serase, sget, ih]
      · simp [serase, sget, h2, ih]
    · by_cases h2 : k0 = k2
      · subst h2
        have hk : ¬k = k0 := fun hh => h0 hh.symm
        simp [serase, sget, h0, hk]
      · simp [serase, sget, h0, h2, ih]

theorem sget_sset (s : Store α) (k k2 : Nat) (v : NodeR α) :
    sget (sset s k v) k2 = if k = k2 then some v else sget s k2 := by
  simp only [sset, sget]
  by_cases h : k = k2 <;> simp [h, sget_serase]

theorem serase_not_mem (s : Store α) (k : Nat) (h : sget s k = none) : serase s k = s := by
  induction s with
  | nil => rfl
  | cons p rest ih =>
    obtain ⟨k0, v0⟩ := p
    simp only [sget] at h
    by_cases h0 : k0 = k
    · simp [h0] at h
    · rw [if_neg h0] at h
      simp only [serase, if_neg h0]
      rw [ih h]

theorem sget_none_of_gt (s : Store α) (k : Nat)
    (h : s.foldr (fun p m => max p.1 m) 0 < k) : sget s k = none := by
  induction s with
  | nil => rfl
  | cons p rest ih =>
    obtain ⟨k0, v0⟩ := p
    simp only [List.foldr] at h
    rw [Nat.max_lt] at h
    simp only [sget]
    rw [if_neg (by omega)]
    exact ih h.2

theorem sget_sfresh (s : Store α) : sget s (sfresh s) = none := by
  apply sget_none_of_gt
  simp [sfresh]

theorem sget_sset_isSome (s : Store α) (k2 : Nat) (v : NodeR α) (k : Nat)
    (h : (sget s k).isSome) : (sget (sset s k2 v) k).isSome := by
  rw [sget_sset]
  by_cases hk : k2 = k <;> simp [hk, h]

/-- A run of `meldS` never deallocates: every address allocated before the
call is still allocated after it, whether the run succeeds or fails. -/
theorem meldS_dom (comp : α → α → Except ε Bool) :
    ∀ (fuel : Nat) (s : Store α) (a b : Option Nat) (s2 : Store α)
      (res : Except (MeldErr ε) (Option Nat)) (k : Nat),
      meldS comp fuel s a b = (s2, res) → (sget s k).isSome → (sget s2 k).isSome := by
  intro fuel
  induction fuel with
  | zero =>
    intro s a b s2 res k h hk
    simp only [meldS] at h
    cases h
    exact hk
  | succ fuel ih =>
    intro s a b s2 res k h hk
    match a, b with
    | none, b => simp only [meldS] at h; cases h; exact hk
    | some a, none => simp only [meldS] at h; cases h; exact hk
    | some a, some b =>
      simp only [meldS] at h
      split at h
      · split at h
        · cases h; exact hk
        · split at h
          · rename_i s1 e hm
            cases h
            exact ih s _ _ _ _ k hm hk
          · rename_i s1 nr hm
            split at h
            · cases h; exact ih s _ _ _ _ k hm hk
            · cases h
              exact sget_sset_isSome _ _ _ _
                (sget_sset_isSome _ _ _ _ (sget_sset_isSome _ _ _ _ (ih s _ _ _ _ k hm hk)))
      · cases h; exact hk

/-- Core of the strong exception safety of the source `meld`: whenever the
run fails (the comparator threw, or fuel ran out, or a dangling pointer was
hit), the store is exactly the store before the call, because every store
write of a frame happens only after the recursive call of that frame has
returned successfully. -/
theorem meldS_error_store (comp : α → α → Except ε Bool) :
    ∀ (fuel : Nat) (s : Store α) (a b : Option Nat) (s2 : Store α) (err : MeldErr ε),
      meldS comp fuel s a b = (s2, .error err) → s2 = s := by
  intro fuel
  induction fuel with
  | zero =>
    intro s a b s2 err h
    simp only [meldS] at h
    cases h
    rfl
  | succ fuel ih =>
    intro s a b s2 err h
    match a, b with
    | none, b => simp only [meldS] at h; cases h
    | some a, none => simp only [meldS] at h; cases h
    | some a, some b =>
      simp only [meldS] at h
      split at h
      · rename_i an bn hga hgb
        split at h
        · cases h; rfl
        · rename_i c hc
          split at h
          · rename_i s1 e hm
            cases h
            exact ih s _ _ _ _ hm
          · rename_i s1 nr hm
            split at h
            · rename_i hgw
              have hw : (sget s (if c then b else a)).isSome := by
                cases c <;> simp [hga, hgb]
              have hw1 := meldS_dom comp fuel s _ _ s1 _ (if c then b else a) hm hw
              rw [hgw] at hw1
              cases hw1
            · cases h
      · cases h; rfl

/-! ## Functional tree lemmas -/

theorem rebuild_elems (wv : α) (wl nr : Tree α) :
    elemsT (rebuild wv wl nr) = wv ::ₘ (elemsT wl + elemsT nr) := by
  unfold rebuild
  split
  · simp only [elemsT]
    rw [add_comm (elemsT nr) (elemsT wl)]
  · rfl

theorem card_elemsT (t : Tree α) : Multiset.card (elemsT t) = treeSize t := by
  induction t with
  | nil => rfl
  | node v l r np ihl ihr =>
    simp [elemsT, treeSize, ihl, ihr]

theorem rebuild_rootVal (wv : α) (wl nr : Tree α) : rootVal (rebuild wv wl nr) = some wv := by
  unfold rebuild
  split <;> rfl

theorem domChild_rebuild (comp : α → α → Except ε Bool) (v wv : α) (wl nr : Tree α) :
    domChild comp v (rebuild wv wl nr) = leOk comp v wv := by
  unfold rebuild
  split <;> rfl

theorem rebuild_leftist (wv : α) (wl nr : Tree α) (hl : leftistB wl = true)
    (hr : leftistB nr = true) : leftistB (rebuild wv wl nr) = true := by
  unfold rebuild
  split
  · rename_i hsp
    simp [leftistB, hl, hr]
    omega
  · rename_i hsp
    simp [leftistB, hl, hr]
    omega

theorem rebuild_heapOrd (comp : α → α → Except ε Bool) (wv : α) (wl nr : Tree α)
    (h1 : domChild comp wv wl = true) (h2 : domChild comp wv nr = true)
    (h3 : heapOrdB comp wl = true) (h4 : heapOrdB comp nr = true) :
    heapOrdB comp (rebuild wv wl nr) = true := by
  unfold rebuild
  split <;> simp [heapOrdB, h1, h2, h3, h4]

theorem leOk_iff (comp : α → α → Except ε Bool) (v w : α) :
    leOk comp v w = true ↔ comp v w = .ok false := by
  cases h : comp v w with
  | error e => simp [leOk, h]
  | ok c => cases c <;> simp [leOk, h]

/-- Successful `meld` returns the multiset union of its operands. -/
theorem meld_elems (comp : α → α → Except ε Bool) :
    ∀ (fuel : Nat) (a b t : Tree α), meld comp fuel a b = .ok t →
      elemsT t = elemsT a + elemsT b := by
  intro fuel
  induction fuel with
  | zero =>
    intro a b t h
    simp [meld] at h
  | succ fuel ih =>
    intro a b t h
    match a, b with
    | .nil, b =>
      simp only [meld] at h
      cases h
      simp [elemsT]
    | .node av al ar an, .nil =>
      simp only [meld] at h
      cases h
      simp [elemsT]
    | .node av al ar an, .node bv bl br bn =>
      simp only [meld] at h
      split at h
      · cases h
      · split at h
        · cases h
        · rename_i nr hm
          cases h
          rw [rebuild_elems, ih _ _ _ hm]
          simp only [elemsT]
          simp only [← Multiset.singleton_add]
          abel
      · split at h
        · cases h
        · rename_i nr hm
          cases h
          rw [rebuild_elems, ih _ _ _ hm]
          simp only [elemsT]
          simp only [← Multiset.singleton_add]
          abel

/-- Successful `meld` returns a tree of the summed sizes. -/
theorem meld_size (comp : α → α → Except ε Bool) (fuel : Nat) (a b t : Tree α)
    (h : meld comp fuel a b = .ok t) : treeSize t = treeSize a + treeSize b := by
  have hc := congrArg Multiset.card (meld_elems comp fuel a b t h)
  simpa [card_elemsT] using hc

/-- The root of a successful `meld` is dominated by any value dominating the
roots of both operands. -/
theorem meld_dom (comp : α → α → Except ε Bool) (v : α) (fuel : Nat) (a b t : Tree α)
    (ha : domChild comp v a = true) (hb : domChild comp v b = true)
    (h : meld comp fuel a b = .ok t) : domChild comp v t = true := by
  match fuel, a, b with
  | 0, _, _ => simp [meld] at h
  | _ + 1, .nil, b =>
    simp only [meld] at h
    cases h
    exact hb
  | _ + 1, .node av al ar an, .nil =>
    simp only [meld] at h
    cases h
    exact ha
  | fuel + 1, .node av al ar an, .node bv bl br bn =>
    simp only [meld] at h
    split at h
    · cases h
    · split at h
      · cases h
      · cases h
        rw [domChild_rebuild]
        exact hb
    · split at h
      · cases h
      · cases h
        rw [domChild_rebuild]
        exact ha

/-- Successful `meld` preserves the leftist and rank invariants. -/
theorem meld_leftist (comp : α → α → Except ε Bool) :
    ∀ (fuel : Nat) (a b t : Tree α), meld comp fuel a b = .ok t →
      leftistB a = true → leftistB b = true → leftistB t = true := by
  intro fuel
  induction fuel with
  | zero =>
    intro a b t h
    simp [meld] at h
  | succ fuel ih =>
    intro a b t h ha hb
    match a, b with
    | .nil, b =>
      simp only [meld] at h
      cases h
      exact hb
    | .node av al ar an, .nil =>
      simp only [meld] at h
      cases h
      exact ha
    | .node av al ar an, .node bv bl br bn =>
      simp only [leftistB, Bool.and_eq_true] at ha hb
      simp only [meld] at h
      split at h
      · cases h
      · rename_i hc
        split at h
        · cases h
        · rename_i nr hm
          cases h
          exact rebuild_leftist _ _ _ hb.1.2 (ih _ _ _ hm hb.2 (by simp [leftistB, Bool.and_eq_true, ha]))
      · rename_i hc
        split at h
        · cases h
        · rename_i nr hm
          cases h
          exact rebuild_leftist _ _ _ ha.1.2 (ih _ _ _ hm ha.2 (by simp [leftistB, Bool.and_eq_true, hb]))

/-- Successful `meld` preserves heap order, provided the comparator is
asymmetric on its successful answers. -/
theorem meld_heapOrd (comp : α → α → Except ε Bool)
    (hasym : ∀ x y, comp x y = .ok true → comp y x = .ok false) :
    ∀ (fuel : Nat) (a b t : Tree α), meld comp fuel a b = .ok t →
      heapOrdB comp a = true → heapOrdB comp b = true → heapOrdB comp t = true := by
  intro fuel
  induction fuel with
  | zero =>
    intro a b t h
    simp [meld] at h
  | succ fuel ih =>
    intro a b t h ha hb
    match a, b with
    | .nil, b =>
      simp only [meld] at h
      cases h
      exact hb
    | .node av al ar an, .nil =>
      simp only [meld] at h
      cases h
      exact ha
    | .node av al ar an, .node bv bl br bn =>
      simp only [heapOrdB, Bool.and_eq_true] at ha hb
      simp only [meld] at h
      split at h
      · cases h
      · rename_i hc
        split at h
        · cases h
        · rename_i nr hm
          cases h
          refine rebuild_heapOrd comp bv bl nr hb.1.1.1 ?_ hb.1.2 ?_
          · refine meld_dom comp bv fuel _ _ _ hb.1.1.2 ?_ hm
            simp only [domChild]
            rw [leOk_iff]
            exact hasym _ _ hc
          · refine ih _ _ _ hm hb.2 ?_
            simp [heapOrdB, Bool.and_eq_true, ha]
      · rename_i hc
        split at h
        · cases h
        · rename_i nr hm
          cases h
          refine rebuild_heapOrd comp av al nr ha.1.1.1 ?_ ha.1.2 ?_
          · refine meld_dom comp av fuel _ _ _ ha.1.1.2 ?_ hm
            simp only [domChild]
            rw [leOk_iff]
            exact hc
          · refine ih _ _ _ hm ha.2 ?_
            simp [heapOrdB, Bool.and_eq_true, hb]

theorem clone_pureCopy (t : Tree α) : clone (pureCopy : α → Except ε α) t = .ok t := by
  induction t with
  | nil => rfl
  | node v l r np ihl ihr => simp [clone, pureCopy, ihl, ihr]

theorem treeSize_eq_zero {t : Tree α} (h : treeSize t = 0) : t = .nil := by
  cases t with
  | nil => rfl
  | node v l r np => simp [treeSize] at h

theorem leftist_get_npl_nonneg {t : Tree α} (h : leftistB t = true) : 0 ≤ get_npl t := by
  induction t with
  | nil => simp [get_npl]
  | node v l r np ihl ihr =>
    simp only [leftistB, Bool.and_eq_true, beq_iff_eq, decide_eq_true_eq] at h
    obtain ⟨⟨⟨h1, h2⟩, h3⟩, h4⟩ := h
    have hr := ihr h4
    simp only [get_npl]
    omega

theorem leftist_ranksPos {t : Tree α} (h : leftistB t = true) : ranksPos t = true := by
  induction t with
  | nil => rfl
  | node v l r np ihl ihr =>
    simp only [leftistB, Bool.and_eq_true, beq_iff_eq, decide_eq_true_eq] at h
    obtain ⟨⟨⟨h1, h2⟩, h3⟩, h4⟩ := h
    have hr := leftist_get_npl_nonneg h4
    simp [ranksPos, ihl h3, ihr h4]
    omega

/-! ## Case analyses of the public operations -/

theorem push_cases (fuel : Nat) (q : priority_queue α ε) (e : α)
    (q2 : priority_queue α ε) (res : Option (PQErr ε))
    (h : priority_queue.push fuel q e = (q2, res)) :
    (∃ r, meld q.comp fuel q.root (.node e .nil .nil 1) = .ok r ∧
      q2 = { root := r, cnt := q.cnt + 1, comp := q.comp } ∧ res = none) ∨
    (q2 = q ∧ res = some .runtime_error) := by
  simp only [priority_queue.push] at h
  split at h
  · rename_i r hm
    cases h
    exact Or.inl ⟨r, hm, rfl, rfl⟩
  · cases h
    exact Or.inr ⟨rfl, rfl⟩

theorem pop_cases (fuel : Nat) (q : priority_queue α ε)
    (q2 : priority_queue α ε) (res : Option (PQErr ε))
    (h : priority_queue.pop fuel q = (q2, res)) :
    (q2 = q ∧ (res = some .container_is_empty ∨ res = some .ub ∨ res = some .runtime_error)) ∨
    (∃ v l r np t, q.empty = false ∧ q.root = .node v l r np ∧
      meld q.comp fuel l r = .ok t ∧
      q2 = { root := t, cnt := q.cnt - 1, comp := q.comp } ∧ res = none) := by
  simp only [priority_queue.pop] at h
  split at h
  · cases h
    exact Or.inl ⟨rfl, Or.inl rfl⟩
  · rename_i hne
    split at h
    · cases h
      exact Or.inl ⟨rfl, Or.inr (Or.inl rfl)⟩
    · rename_i v l r np hroot
      split at h
      · rename_i t hm
        cases h
        exact Or.inr ⟨v, l, r, np, t, by simpa using hne, hroot, hm, rfl, rfl⟩
      · cases h
        exact Or.inl ⟨rfl, Or.inr (Or.inr rfl)⟩

theorem merge_cases (fuel : Nat) (isSelf : Bool) (q other : priority_queue α ε)
    (q2 other2 : priority_queue α ε) (res : Option (PQErr ε))
    (h : priority_queue.merge fuel isSelf q other = ((q2, other2), res)) :
    ((isSelf = true ∨ other.empty = true) ∧ q2 = q ∧ other2 = other ∧ res = none) ∨
    (q2 = q ∧ other2 = other ∧ res = some .runtime_error) ∨
    (∃ t, meld q.comp fuel q.root other.root = .ok t ∧
      q2 = { root := t, cnt := q.cnt + other.cnt, comp := q.comp } ∧
      other2 = { root := .nil, cnt := 0, comp := other.comp } ∧ res = none) := by
  simp only [priority_queue.merge] at h
  split at h
  · rename_i hcond
    cases h
    exact Or.inl ⟨by simpa [Bool.or_eq_true] using hcond, rfl, rfl, rfl⟩
  · split at h
    · rename_i t hm
      cases h
      exact Or.inr (Or.inr ⟨t, hm, rfl, rfl, rfl⟩)
    · cases h
      exact Or.inr (Or.inl ⟨rfl, rfl, rfl⟩)

/-! ## Invariants of reachable states -/

theorem reach_comp {comp : α → α → Except ε Bool} {q : priority_queue α ε}
    (h : Reachable comp q) : q.comp = comp := by
  induction h with
  | init => rfl
  | push fuel e hq heq ih =>
    rcases push_cases _ _ _ _ _ heq with ⟨r, hm, rfl, hres⟩ | ⟨rfl, hres⟩
    · exact ih
    · exact ih
  | pop fuel hq heq ih =>
    rcases pop_cases _ _ _ _ heq with ⟨rfl, hres⟩ | ⟨v, l, r, np, t, hne, hroot, hm, rfl, hres⟩
    · exact ih
    · exact ih
  | mergeL fuel isSelf hq ho heq ih iho =>
    rcases merge_cases _ _ _ _ _ _ _ heq with ⟨hcond, rfl, h2, hres⟩ |
      ⟨rfl, h2, hres⟩ | ⟨t, hm, rfl, h2, hres⟩
    · exact ih
    · exact ih
    · exact ih
  | mergeR fuel isSelf hq ho heq ih iho =>
    rcases merge_cases _ _ _ _ _ _ _ heq with ⟨hcond, h1, rfl, hres⟩ |
      ⟨h1, rfl, hres⟩ | ⟨t, hm, h1, rfl, hres⟩
    · exact iho
    · exact iho
    · exact iho
  | copy hq hc ih => exact ih

/-- The count member always equals the number of reachable nodes, and the
tree always satisfies the leftist and rank invariants. -/
theorem reach_size_leftist {comp : α → α → Except ε Bool} {q : priority_queue α ε}
    (h : Reachable comp q) : q.cnt = treeSize q.root ∧ leftistB q.root = true := by
  induction h with
  | init => exact ⟨rfl, rfl⟩
  | push fuel e hq heq ih =>
    rename_i q q2 res
    rcases push_cases _ _ _ _ _ heq with ⟨r, hm, rfl, hres⟩ | ⟨rfl, hres⟩
    · have hs := meld_size _ _ _ _ _ hm
      have hl := meld_leftist _ _ _ _ _ hm ih.2 (by rfl)
      have ih1 := ih.1
      refine ⟨?_, hl⟩
      show q.cnt + 1 = treeSize r
      simp only [treeSize] at hs
      omega
    · exact ih
  | pop fuel hq heq ih =>
    rename_i q q2 res
    rcases pop_cases _ _ _ _ heq with ⟨rfl, hres⟩ | ⟨v, l, r, np, t, hne, hroot, hm, rfl, hres⟩
    · exact ih
    · have hs := meld_size _ _ _ _ _ hm
      have ihs := ih.1
      rw [hroot] at ihs
      have ihl := ih.2
      rw [hroot] at ihl
      simp only [leftistB, Bool.and_eq_true] at ihl
      have hl := meld_leftist _ _ _ _ _ hm ihl.1.2 ihl.2
      refine ⟨?_, hl⟩
      show q.cnt - 1 = treeSize t
      simp only [treeSize] at ihs
      omega
  | mergeL fuel isSelf hq ho heq ih iho =>
    rename_i q other q2 other2 res
    rcases merge_cases _ _ _ _ _ _ _ heq with ⟨hcond, rfl, h2, hres⟩ |
      ⟨rfl, h2, hres⟩ | ⟨t, hm, rfl, h2, hres⟩
    · exact ih
    · exact ih
    · have hs := meld_size _ _ _ _ _ hm
      have hl := meld_leftist _ _ _ _ _ hm ih.2 iho.2
      have ih1 := ih.1
      have io1 := iho.1
      refine ⟨?_, hl⟩
      show q.cnt + other.cnt = treeSize t
      omega
  | mergeR fuel isSelf hq ho heq ih iho =>
    rcases merge_cases _ _ _ _ _ _ _ heq with ⟨hcond, h1, rfl, hres⟩ |
      ⟨h1, rfl, hres⟩ | ⟨t, hm, h1, rfl, hres⟩
    · exact iho
    · exact iho
    · exact ⟨rfl, rfl⟩
  | copy hq hc ih =>
    rw [clone_pureCopy] at hc
    cases hc
    exact ih

/-- Every reachable queue state satisfies heap order, provided the
comparator is asymmetric on its successful answers. -/
theorem reach_heapOrd {comp : α → α → Except ε Bool}
    (hasym : ∀ x y, comp x y = .ok true → comp y x = .ok false)
    {q : priority_queue α ε} (h : Reachable comp q) : heapOrdB comp q.root = true := by
  induction h with
  | init => rfl
  | push fuel e hq heq ih =>
    rename_i q q2 res
    have hco : q.comp = comp := reach_comp hq
    rcases push_cases _ _ _ _ _ heq with ⟨r, hm, rfl, hres⟩ | ⟨rfl, hres⟩
    · rw [hco] at hm
      exact meld_heapOrd comp hasym _ _ _ _ hm ih (by rfl)
    · exact ih
  | pop fuel hq heq ih =>
    rename_i q q2 res
    have hco : q.comp = comp := reach_comp hq
    rcases pop_cases _ _ _ _ heq with ⟨rfl, hres⟩ | ⟨v, l, r, np, t, hne, hroot, hm, rfl, hres⟩
    · exact ih
    · rw [hco] at hm
      rw [hroot] at ih
      simp only [heapOrdB, Bool.and_eq_true] at ih
      exact meld_heapOrd comp hasym _ _ _ _ hm ih.1.2 ih.2
  | mergeL fuel isSelf hq ho heq ih iho =>
    rename_i q other q2 other2 res
    have hco : q.comp = comp := reach_comp hq
    rcases merge_cases _ _ _ _ _ _ _ heq with ⟨hcond, rfl, h2, hres⟩ |
      ⟨rfl, h2, hres⟩ | ⟨t, hm, rfl, h2, hres⟩
    · exact ih
    · exact ih
    · rw [hco] at hm
      exact meld_heapOrd comp hasym _ _ _ _ hm ih iho
  | mergeR fuel isSelf hq ho heq ih iho =>
    rcases merge_cases _ _ _ _ _ _ _ heq with ⟨hcond, h1, rfl, hres⟩ |
      ⟨h1, rfl, hres⟩ | ⟨t, hm, h1, rfl, hres⟩
    · exact iho
    · exact iho
    · rfl
  | copy hq hc ih =>
    rw [clone_pureCopy] at hc
    cases hc
    exact ih

/-- In a heap-ordered tree the root value dominates every stored element,
provided the comparator is irreflexive and negatively transitive on its
successful answers. -/
theorem heapOrd_dominates {comp : α → α → Except ε Bool}
    (hirr : ∀ x, comp x x = .ok false)
    (hneg : ∀ x y z, comp x y = .ok false → comp y z = .ok false → comp x z = .ok false) :
    ∀ (t : Tree α), heapOrdB comp t = true → ∀ v, rootVal t = some v →
      ∀ x ∈ elemsT t, leOk comp v x = true := by
  intro t
  induction t with
  | nil =>
    intro _ v hv
    cases hv
  | node w l r np ihl ihr =>
    intro hord v hv x hx
    have hw : w = v := by
      simpa [rootVal] using hv
    rw [← hw]
    simp only [heapOrdB, Bool.and_eq_true] at hord
    simp only [elemsT, Multiset.mem_cons, Multiset.mem_add] at hx
    rcases hx with rfl | hx | hx
    · rw [leOk_iff]
      exact hirr _
    · cases l with
      | nil => simp [elemsT] at hx
      | node lv ll lr lnp =>
        have h1 : comp w lv = .ok false := by
          have := hord.1.1.1
          rwa [domChild, leOk_iff] at this
        have h2 : comp lv x = .ok false := by
          have := ihl hord.1.2 lv rfl x hx
          rwa [leOk_iff] at this
        rw [leOk_iff]
        exact hneg _ _ _ h1 h2
    · cases r with
      | nil => simp [elemsT] at hx
      | node rv rl rr rnp =>
        have h1 : comp w rv = .ok false := by
          have := hord.1.1.2
          rwa [domChild, leOk_iff] at this
        have h2 : comp rv x = .ok false := by
          have := ihr hord.2 rv rfl x hx
          rwa [leOk_iff] at this
        rw [leOk_iff]
        exact hneg _ _ _ h1 h2

/-! ## Properties of the concrete comparators used by the witnesses -/

theorem cmpN_asym : ∀ x y : Nat, cmpN x y = .ok true → cmpN y x = .ok false := by
  intro x y h
  simp only [cmpN, Except.ok.injEq, decide_eq_true_eq] at h
  simp only [cmpN, Except.ok.injEq, decide_eq_false_iff_not]
  omega

theorem cmpN_irrefl : ∀ x : Nat, cmpN x x = .ok false := by
  intro x
  simp only [cmpN, Except.ok.injEq, decide_eq_false_iff_not]
  omega

theorem cmpN_negtrans : ∀ x y z : Nat, cmpN x y = .ok false → cmpN y z = .ok false →
    cmpN x z = .ok false := by
  intro x y z h1 h2
  simp only [cmpN, Except.ok.injEq, decide_eq_false_iff_not] at h1 h2 ⊢
  omega

theorem wQ1_reach : Reachable cmpN wQ1 :=
  Reachable.push 9 10 Reachable.init
    (show priority_queue.push 9 { root := .nil, cnt := 0, comp := cmpN } 10 = (wQ1, none) from rfl)

theorem wQ2_reach : Reachable cmpN wQ2 :=
  Reachable.push 9 15 Reachable.init
    (show priority_queue.push 9 { root := .nil, cnt := 0, comp := cmpN } 15 = (wQ2, none) from rfl)

theorem wQ12_reach : Reachable cmpN wQ12 :=
  Reachable.mergeL 9 false wQ1_reach wQ2_reach
    (show priority_queue.merge 9 false wQ1 wQ2 = ((wQ12, wQ0), none) from rfl)

/-! ## Claims -/

/-- Claim C1: if the ordering predicate throws during push, pop, or merge,
the operation fails by raising `runtime_error` (the OperationFailed of the
spec) and the store together with every queue header involved is exactly as
immediately before the call, so size, top and element multiset are all
preserved; in the failed merge case the other queue is not cleared. -/
theorem C1_rollback_on_comparator_failure (comp : α → α → Except ε Bool) (fuel : Nat)
    (s : Store α) (h o : HeapHdr) (e : α) :
    (∀ sm e0,
      meldS comp fuel ((sfresh s, { val := e, l := none, r := none, npl := 1 }) :: s)
          h.root (some (sfresh s)) = (sm, .error (.compFail e0)) →
      pushS comp pureCopy fuel s h e = ((s, h), some .runtime_error)) ∧
    (h.cnt ≠ 0 → ∀ old oldn sm e0, h.root = some old → sget s old = some oldn →
      meldS comp fuel s oldn.l oldn.r = (sm, .error (.compFail e0)) →
      popS comp fuel s h = ((s, h), some .runtime_error)) ∧
    (o.cnt ≠ 0 → ∀ sm e0,
      meldS comp fuel s h.root o.root = (sm, .error (.compFail e0)) →
      mergeS comp fuel false s h o = ((s, h, o), some .runtime_error)) := by
  refine ⟨?_, ?_, ?_⟩
  · intro sm e0 hm
    have hs := meldS_error_store comp fuel _ _ _ _ _ hm
    subst hs
    simp only [pushS, pureCopy, hm]
    simp [serase, serase_not_mem s (sfresh s) (sget_sfresh s)]
  · intro hcz old oldn sm e0 hroot hold hm
    have hs := meldS_error_store comp fuel _ _ _ _ _ hm
    subst hs
    simp only [popS, if_neg hcz, hroot, hold, hm]
    rw [← hroot]
  · intro hoz sm e0 hm
    have hs := meldS_error_store comp fuel _ _ _ _ _ hm
    subst hs
    have hob : (o.cnt == 0) = false := by
      simpa using hoz
    simp only [mergeS, Bool.false_or, hob, hm]
    simp

/-- Witness for C1: a concrete always-throwing comparator on a concrete
store; all three operations report `runtime_error` and restore everything. -/
theorem C1_witness :
    pushS cmpFail pureCopy 9 wStore wH 8 = ((wStore, wH), some .runtime_error) ∧
    popS cmpFail 9 wStore wH = ((wStore, wH), some .runtime_error) ∧
    mergeS cmpFail 9 false wStore wH wO = ((wStore, wH, wO), some .runtime_error) := by
  refine ⟨?_, ?_, ?_⟩
  · exact (C1_rollback_on_comparator_failure cmpFail 9 wStore wH wO 8).1
      ((sfresh wStore, { val := 8, l := none, r := none, npl := 1 }) :: wStore) 0 (by rfl)
  · exact (C1_rollback_on_comparator_failure cmpFail 9 wStore wH wO 8).2.1
      (by decide) 1 { val := 9, l := some 2, r := some 3, npl := 1 } wStore 0
      (by rfl) (by rfl) (by rfl)
  · exact (C1_rollback_on_comparator_failure cmpFail 9 wStore wH wO 8).2.2
      (by decide) wStore 0 (by rfl)

/-- Claim C2: after a successful `merge` of two distinct queues, the first
contains exactly the multiset union of the prior contents, its size is the
sum of the prior sizes, and the other queue is empty. -/
theorem C2_merge_correctness {comp : α → α → Except ε Bool} (fuel : Nat)
    {q other q2 other2 : priority_queue α ε}
    (hq : Reachable comp q) (ho : Reachable comp other)
    (h : priority_queue.merge fuel false q other = ((q2, other2), none)) :
    elemsT q2.root = elemsT q.root + elemsT other.root ∧
    q2.size = q.size + other.size ∧ other2.root = .nil ∧ other2.cnt = 0 := by
  rcases merge_cases _ _ _ _ _ _ _ h with ⟨hcond, hq2, ho2, hres⟩ |
    ⟨h1, h2, hres⟩ | ⟨t, hm, hq2, ho2, hres⟩
  · rw [hq2, ho2]
    rcases hcond with hfalse | hemp
    · cases hfalse
    · have hsz := (reach_size_leftist ho).1
      have hce : other.cnt = 0 := by
        simpa [priority_queue.empty] using hemp
      rw [hce] at hsz
      have hnil : other.root = .nil := treeSize_eq_zero hsz.symm
      refine ⟨?_, ?_, hnil, hce⟩
      · rw [hnil]
        simp [elemsT]
      · simp [priority_queue.size, hce]
  · cases hres
  · rw [hq2, ho2]
    refine ⟨meld_elems _ _ _ _ _ hm, ?_, rfl, rfl⟩
    rfl

/-- Witness for C2: merging the singleton queues 10 and 15. -/
theorem C2_witness :
    elemsT wQ12.root = elemsT wQ1.root + elemsT wQ2.root ∧
    wQ12.size = wQ1.size + wQ2.size ∧ wQ0.root = .nil ∧ wQ0.cnt = 0 :=
  C2_merge_correctness 9 wQ1_reach wQ2_reach
    (show priority_queue.merge 9 false wQ1 wQ2 = ((wQ12, wQ0), none) from rfl)

/-- Claim C3, counterexample to the claim as stated: when the value copy of
`new Node(e)` fails (here with exception 7), `push` does not convert the
failure into `runtime_error` (OperationFailed), because the allocation
happens before the try block: the raw exception 7 propagates. -/
theorem C3_counterexample :
    pushS cmpN copyFail 9 ([] : Store Nat) { root := none, cnt := 0 } 5 =
      (([], { root := none, cnt := 0 }), some (.raw 7)) ∧
    some (PQErr.raw 7 : PQErr Nat) ≠ some (PQErr.runtime_error : PQErr Nat) :=
  ⟨rfl, by decide⟩

/-- Claim C3 as amended: if copying the value of type T fails during
`push(v)`, the failure propagates to the caller unconverted (as the original
exception, not as OperationFailed), and the queue state is exactly what it
was before the call. -/
theorem C3_copy_failure_propagates_raw {comp : α → α → Except ε Bool}
    {copyv : α → Except ε α} (fuel : Nat) (s : Store α) (h : HeapHdr) (e : α) (ex : ε)
    (hc : copyv e = .error ex) :
    pushS comp copyv fuel s h e = ((s, h), some (.raw ex)) := by
  simp [pushS, hc]

/-- Witness for the amended C3. -/
theorem C3_witness :
    pushS cmpN copyFail 9 ([] : Store Nat) { root := none, cnt := 0 } 5 =
      (([], { root := none, cnt := 0 }), some (.raw 7)) :=
  C3_copy_failure_propagates_raw 9 [] { root := none, cnt := 0 } 5 7 rfl

/-- Claim C4: for every non-empty reachable queue, `top()` returns a maximal
element under the supplied strict weak ordering: no stored element compares
greater than the returned value. -/
theorem C4_top_is_maximal {comp : α → α → Except ε Bool}
    (hirr : ∀ x, comp x x = .ok false)
    (hasym : ∀ x y, comp x y = .ok true → comp y x = .ok false)
    (hneg : ∀ x y z, comp x y = .ok false → comp y z = .ok false → comp x z = .ok false)
    {q : priority_queue α ε} (h : Reachable comp q) (hne : q.size ≠ 0) :
    ∃ v, q.top = .ok v ∧ ∀ x ∈ elemsT q.root, leOk comp v x = true := by
  have hord := reach_heapOrd hasym h
  have hsz := (reach_size_leftist h).1
  have hcnt : q.cnt ≠ 0 := hne
  cases hroot : q.root with
  | nil =>
    rw [hroot] at hsz
    simp [treeSize] at hsz
    exact absurd hsz hcnt
  | node v l r np =>
    refine ⟨v, ?_, ?_⟩
    · have hemp : q.empty = false := by
        rw [show q.empty = (q.cnt == 0) from rfl, beq_eq_false_iff_ne]
        exact hcnt
      simp [priority_queue.top, hemp, hroot]
    · intro x hx
      exact heapOrd_dominates hirr hneg (.node v l r np) (hroot ▸ hord) v rfl x hx

/-- Witness for C4 on the singleton queue holding 10. -/
theorem C4_witness :
    ∃ v, wQ1.top = .ok v ∧ ∀ x ∈ elemsT wQ1.root, leOk cmpN v x = true :=
  C4_top_is_maximal cmpN_irrefl cmpN_asym cmpN_negtrans wQ1_reach (by decide)

/-- Claim C5: every queue state reachable through the public operations
satisfies heap order: for every node and every existing child,
`compare(parent.value, child.value)` is false. -/
theorem C5_heap_order_invariant {comp : α → α → Except ε Bool}
    (hasym : ∀ x y, comp x y = .ok true → comp y x = .ok false)
    {q : priority_queue α ε} (h : Reachable comp q) : heapOrdB comp q.root = true :=
  reach_heapOrd hasym h

/-- Witness for C5 on the merged two-element queue. -/
theorem C5_witness : heapOrdB cmpN wQ12.root = true :=
  C5_heap_order_invariant cmpN_asym wQ12_reach

/-- Claim C6: every reachable queue state satisfies the leftist and rank
invariants: rank(left) at least rank(right), rank(node) = rank(right) + 1
with rank(absent) = 0, and every rank at least 1. -/
theorem C6_leftist_rank_invariant {comp : α → α → Except ε Bool}
    {q : priority_queue α ε} (h : Reachable comp q) :
    leftistB q.root = true ∧ ranksPos q.root = true :=
  ⟨(reach_size_leftist h).2, leftist_ranksPos (reach_size_leftist h).2⟩

/-- Witness for C6 on the merged two-element queue. -/
theorem C6_witness : leftistB wQ12.root = true ∧ ranksPos wQ12.root = true :=
  C6_leftist_rank_invariant wQ12_reach

/-- Claim C7: in every reachable queue state (including states after failed
operations, which the reachability relation admits), `size()` equals the
number of elements reachable from the root, and `empty()` is true exactly
when that number is 0. -/
theorem C7_count_correctness {comp : α → α → Except ε Bool}
    {q : priority_queue α ε} (h : Reachable comp q) :
    q.size = treeSize q.root ∧ (q.empty = true ↔ treeSize q.root = 0) := by
  have hs := (reach_size_leftist h).1
  refine ⟨hs, ?_⟩
  rw [show q.empty = (q.cnt == 0) from rfl, ← hs]
  simp [priority_queue.size]

/-- Witness for C7 on the merged two-element queue. -/
theorem C7_witness :
    wQ12.size = treeSize wQ12.root ∧ (wQ12.empty = true ↔ treeSize wQ12.root = 0) :=
  C7_count_correctness wQ12_reach

/-- Claim C8: `top()` and `pop()` on an empty reachable queue raise
`container_is_empty` and change nothing: afterwards the queue still has
size 0 and an absent root. -/
theorem C8_empty_top_pop {comp : α → α → Except ε Bool} (fuel : Nat)
    {q : priority_queue α ε} (h : Reachable comp q) (hz : q.size = 0) :
    q.top = .error .container_is_empty ∧
    priority_queue.pop fuel q = (q, some .container_is_empty) ∧
    q.root = .nil := by
  have hs := (reach_size_leftist h).1
  have hz2 : q.cnt = 0 := hz
  have hemp : q.empty = true := by
    simp [priority_queue.empty, hz2]
  have hnil : q.root = .nil := by
    apply treeSize_eq_zero
    rw [← hs]
    exact hz2
  refine ⟨?_, ?_, hnil⟩
  · simp [priority_queue.top, hemp]
  · simp [priority_queue.pop, hemp]

/-- Witness for C8 on the empty queue. -/
theorem C8_witness :
    wQE.top = .error .container_is_empty ∧
    priority_queue.pop 9 wQE = (wQE, some .container_is_empty) ∧
    wQE.root = .nil :=
  C8_empty_top_pop 9 Reachable.init rfl

/-- Claim C9: when `meld` unions two non-empty trees, the root of the second
operand becomes the root of the result only when `compare(a.value, b.value)`
is true; in particular, on a tie (neither direction holds) the root of the
first operand remains the root. -/
theorem C9_meld_tie_break {comp : α → α → Except ε Bool} {fuel : Nat}
    {av bv : α} {al ar bl br : Tree α} {an bn : Int} {t : Tree α}
    (h : meld comp fuel (.node av al ar an) (.node bv bl br bn) = .ok t) :
    (comp av bv = .ok true → rootVal t = some bv) ∧
    (comp av bv = .ok false → rootVal t = some av) ∧
    (comp av bv = .ok false → comp bv av = .ok false → rootVal t = some av) := by
  match fuel with
  | 0 => simp [meld] at h
  | fuel + 1 =>
    simp only [meld] at h
    split at h
    · cases h
    · rename_i hc
      split at h
      · cases h
      · cases h
        refine ⟨fun _ => rebuild_rootVal _ _ _, fun hcf => ?_, fun hcf _ => ?_⟩
        · rw [hc] at hcf
          simp at hcf
        · rw [hc] at hcf
          simp at hcf
    · rename_i hc
      split at h
      · cases h
      · cases h
        refine ⟨fun hct => ?_, fun _ => rebuild_rootVal _ _ _, fun _ _ => rebuild_rootVal _ _ _⟩
        rw [hc] at hct
        simp at hct

/-- Witness for C9: with the natural order 5 beats 3 and becomes the root;
with the halving comparator 2 and 3 tie and the first root 2 stays. -/
theorem C9_witness :
    rootVal (Tree.node 5 (.node 3 .nil .nil 1) .nil 1 : Tree Nat) = some 5 ∧
    rootVal (Tree.node 2 (.node 3 .nil .nil 1) .nil 1 : Tree Nat) = some 2 := by
  constructor
  · exact (C9_meld_tie_break (show meld cmpN 9 (.node 3 .nil .nil 1) (.node 5 .nil .nil 1) =
      .ok (.node 5 (.node 3 .nil .nil 1) .nil 1) from rfl)).1 rfl
  · exact (C9_meld_tie_break (show meld cmpDiv 9 (.node 2 .nil .nil 1) (.node 3 .nil .nil 1) =
      .ok (.node 2 (.node 3 .nil .nil 1) .nil 1) from rfl)).2.2 rfl rfl

/-- Claim C10: self-assignment is a no-op: it returns the object itself, so
the element multiset, the size and the comparator are unchanged, and it
invokes neither `clone` nor `clear` (the two result flags are false). -/
theorem C10_self_assignment_noop (copyv : α → Except ε α) (q : priority_queue α ε) :
    priority_queue.assign true copyv q q = (.ok q, false, false) := rfl

end sjtu
